import Mathlib

/-!
Verification of the spatial connectivity engine (day08): a union-find
(disjoint-set) structure with path compression and union by rank, a
distance-ranked edge sequence over 3D integer points, and two driver
modes (part1 / part2).

The Python source mutates `parent`, `rank` and `size` lists in place;
here the state is passed explicitly: `find` returns the compressed
structure together with the root, `union` returns the new structure
together with the merged flag.  Python's recursive `find` terminates
because parent chains reach a root; the embedding uses `ds.n` as fuel,
which suffices for every state reachable from `DisjointSet.init`
(proved below).  The sort keys of the distance ranking are the IEEE-754
binary64 values `euclidean_distance` actually returns — `float` of the
exact integer `dx² + dy² + dz²` (round to nearest, ties to even, 53-bit
significand) followed by the correctly rounded square root — computed
exactly over the integers and scaled by the constant `2^54`, which makes
every key a natural number without changing any comparison the sort
performs.  Distinct squared distances may round to equal keys, exactly
as in the program.
-/

namespace Day08

/-- A point is an integer 3-tuple `(x, y, z)`, as produced by
`parse_coordinates` on a well-formed line. -/
abbrev Pt : Type := Int × Int × Int

/-- The disjoint-set state: `parent`, `rank` and `size` arrays of the
Python class, as total functions out of `Nat`, together with the number
of elements `n`.  Indices `≥ n` are never touched. -/
structure DisjointSet where
  n : Nat
  parent : Nat → Nat
  rank : Nat → Nat
  size : Nat → Nat

namespace DisjointSet

/-- `DisjointSet.__init__`: n singleton components, self-parented,
rank 0, size 1. -/
def init (n : Nat) : DisjointSet :=
  { n := n, parent := fun i => i, rank := fun _ => 0, size := fun _ => 1 }

/-- `DisjointSet.find` with explicit fuel.  Mirrors
`if self.parent[x] != x: self.parent[x] = self.find(self.parent[x]); return self.parent[x]`:
the recursive call compresses the tail of the path, then `x` itself is
re-pointed at the returned root. -/
def findAux : Nat → DisjointSet → Nat → DisjointSet × Nat
  | 0, ds, x => (ds, x)
  | fuel + 1, ds, x =>
    if ds.parent x = x then (ds, x)
    else
      let res := findAux fuel ds (ds.parent x)
      ({ res.1 with parent := fun i => if i = x then res.2 else res.1.parent i }, res.2)

/-- `DisjointSet.find`: fuel `ds.n` is enough on every reachable state. -/
def find (ds : DisjointSet) (x : Nat) : DisjointSet × Nat :=
  findAux ds.n ds x

/-- The root that survives the merge: `union` by rank swaps `root_x`
and `root_y` when `rank[root_x] < rank[root_y]`, so the higher-rank
root (tie: `root_x`) absorbs the other. -/
def linkKeep (ds : DisjointSet) (rootX rootY : Nat) : Nat :=
  if ds.rank rootX < ds.rank rootY then rootY else rootX

/-- The root that is absorbed by the merge (the lower-rank root; on a
tie, `root_y`). -/
def linkDrop (ds : DisjointSet) (rootX rootY : Nat) : Nat :=
  if ds.rank rootX < ds.rank rootY then rootX else rootY

/-- The merge branch of `union`, after both roots are resolved:
`parent[root_y] = root_x`, `size[root_x] += size[root_y]`, and
`rank[root_x] += 1` on a rank tie (with `root_x`, `root_y` already
swapped when `rank[root_x] < rank[root_y]`). -/
def link (ds : DisjointSet) (rootX rootY : Nat) : DisjointSet :=
  let rx := linkKeep ds rootX rootY
  let ry := linkDrop ds rootX rootY
  let ds3 : DisjointSet :=
    { ds with
      parent := fun i => if i = ry then rx else ds.parent i,
      size := fun i => if i = rx then ds.size rx + ds.size ry else ds.size i }
  if ds3.rank rx = ds3.rank ry then
    { ds3 with rank := fun i => if i = rx then ds3.rank rx + 1 else ds3.rank i }
  else ds3

/-- `DisjointSet.union`: resolves both roots (compressing paths), then
either reports `false` (already connected) or merges via `link` and
reports `true`. -/
def union (ds : DisjointSet) (x y : Nat) : DisjointSet × Bool :=
  let fx := ds.find x
  let fy := fx.1.find y
  if fx.2 = fy.2 then (fy.1, false)
  else (link fy.1 fx.2 fy.2, true)

/-- Pure chase of parent pointers (no compression), with fuel. -/
def rootAux : Nat → (Nat → Nat) → Nat → Nat
  | 0, _, x => x
  | fuel + 1, p, x => if p x = x then x else rootAux fuel p (p x)

/-- The root of `x` read off without mutation, using fuel `ds.n`. -/
def rootN (ds : DisjointSet) (x : Nat) : Nat :=
  rootAux ds.n ds.parent x

/-- `x` reaches the root `r` by following `p`: `r` is a fixed point of
`p` lying on `x`'s parent chain. -/
def Rooted (p : Nat → Nat) (x r : Nat) : Prop :=
  ∃ k, p^[k] x = r ∧ p r = r

/-- The invariant maintained by every reachable disjoint-set state:
indices outside `[0, n)` are untouched self-loops, parents of in-range
indices stay in range, every parent chain reaches a root, and the size
stored at each root counts exactly the indices rooted there. -/
structure Good (ds : DisjointSet) : Prop where
  closed_ge : ∀ x, ds.n ≤ x → ds.parent x = x
  closed_lt : ∀ x, x < ds.n → ds.parent x < ds.n
  term : ∀ x, ∃ r, Rooted ds.parent x r
  sizes : ∀ r, r < ds.n → ds.parent r = r →
    ds.size r = ((Finset.range ds.n).filter (fun x => ds.rootN x = r)).card

/-- Everything one `find`-style traversal guarantees: the root returned
is `x`'s root, only parent pointers change, and they change only by
re-pointing nodes of `x`'s path at the root; no node's root, root
status, rank or size changes. -/
structure FindSpec (ds ds' : DisjointSet) (x root : Nat) : Prop where
  root_rooted : Rooted ds.parent x root
  n_eq : ds'.n = ds.n
  rank_eq : ds'.rank = ds.rank
  size_eq : ds'.size = ds.size
  parent_cases : ∀ z, ds'.parent z = ds.parent z ∨ ds'.parent z = root
  isRoot_iff : ∀ z, ds'.parent z = z ↔ ds.parent z = z
  rooted_iff : ∀ z s, Rooted ds'.parent z s ↔ Rooted ds.parent z s
  compressed : ∀ k y, ds.parent^[k] x = y → y ≠ root → ds'.parent y = root

/-- The root surviving `union x y` (the higher-rank root of the two;
tie: the root of `x`). -/
def survivor (ds : DisjointSet) (x y : Nat) : Nat :=
  linkKeep ds (ds.rootN x) (ds.rootN y)

/-- The root absorbed by `union x y`. -/
def absorbed (ds : DisjointSet) (x y : Nat) : Nat :=
  linkDrop ds (ds.rootN x) (ds.rootN y)

/-- The current roots: the self-parented in-range indices. -/
def rootsFinset (ds : DisjointSet) : Finset Nat :=
  (Finset.range ds.n).filter fun i => ds.parent i = i

end DisjointSet

/-- The operations a caller may perform on the structure. -/
inductive DSOp where
  | union : Nat → Nat → DSOp
  | find : Nat → DSOp

open DisjointSet in

/-- Apply one call.  Python raises `IndexError` before mutating
anything when an index is out of range (there is no resulting state),
so such calls leave the state unchanged here. -/
def applyOp (ds : DisjointSet) : DSOp → DisjointSet
  | DSOp.union x y => if x < ds.n ∧ y < ds.n then (ds.union x y).1 else ds
  | DSOp.find x => if x < ds.n then (ds.find x).1 else ds

/-- Apply a sequence of `union`/`find` calls. -/
def applyOps (ops : List DSOp) (ds : DisjointSet) : DisjointSet :=
  ops.foldl applyOp ds

/-! The distance ranking.  `euclidean_distance` returns
`(dx² + dy² + dz²) ** 0.5`: Python evaluates the sum exactly in
arbitrary-precision integers, converts it to an IEEE-754 binary64 value
(round to nearest, ties to even), and `** 0.5` takes the correctly
rounded square root of that value.  `distKey` computes the exact value
of this binary64 result, scaled by the constant `2^54` so that it is a
natural number; scaling all keys by one positive constant changes no
comparison and no equality, so the lexicographic sort over
`(distKey, i, j)` orders the candidate edges exactly as the program's
sort over its `(dist, i, j)` float tuples does. -/

/-- The exact integer `dx² + dy² + dz²` computed inside
`euclidean_distance` before the rounding steps. -/
def sqDist (p1 p2 : Pt) : Int :=
  (p1.1 - p2.1) ^ 2 + (p1.2.1 - p2.2.1) ^ 2 + (p1.2.2 - p2.2.2) ^ 2

/-- Fuel-driven floor of the binary logarithm (the fuel argument only
bounds the recursion; `log2floor` supplies enough). -/
def log2Go : Nat → Nat → Nat
  | 0, _ => 0
  | fuel + 1, n => if 2 ≤ n then log2Go fuel (n / 2) + 1 else 0

def log2floor (n : Nat) : Nat :=
  log2Go n n

/-- Digit-by-digit integer square root: try the bits of the result from
the highest down. -/
def isqrtGo (n : Nat) : Nat → Nat → Nat
  | 0, r => r
  | k + 1, r =>
    let r' := r + 2 ^ k
    isqrtGo n k (if r' * r' ≤ n then r' else r)

/-- `⌊√n⌋`. -/
def intSqrt (n : Nat) : Nat :=
  isqrtGo n (log2floor n / 2 + 1) 0

/-- `float(s)` for a non-negative integer `s`: round to the nearest
value with 53 significant bits, ties to even.  The result is itself a
natural number.  (For `s` at the binary64 overflow threshold Python
raises `OverflowError` instead; see `NoOverflow`.) -/
def floatRound53 (s : Nat) : Nat :=
  if s < 2 ^ 53 then s
  else
    let k := log2floor s - 52
    let q := s / 2 ^ k
    let r := s % 2 ^ k
    let half := 2 ^ (k - 1)
    if r < half then q * 2 ^ k
    else if half < r then (q + 1) * 2 ^ k
    else (if q % 2 = 0 then q else q + 1) * 2 ^ k

/-- The sort key `euclidean_distance` produces for the exact squared
distance `s`: the binary64 value of `float(s) ** 0.5` (correctly
rounded square root of the rounded conversion), represented exactly and
scaled by `2^54`.  The rounded square root is `m · 2^(d-54)` with a
53-bit significand `m`, and `d ≥ 2` always holds, so the scaled key
`m · 2^d` is a natural number.  The candidate midpoint comparisons are
exact integer comparisons against `N = float(s) · 2^108`. -/
def distKey (s : Int) : Nat :=
  let x := floatRound53 s.toNat
  if x = 0 then 0
  else
    let N := x * 4 ^ 54
    let a := intSqrt N
    let d := log2floor a - 52
    let lower := a / 2 ^ d
    let c := lower * 2 ^ d + 2 ^ (d - 1)
    let m := if N < c * c then lower
      else if c * c < N then lower + 1
      else (if lower % 2 = 0 then lower else lower + 1)
    m * 2 ^ d

/-- A candidate edge `(dist, i, j)` as appended by the drivers'
double loop, with `dist` the scaled binary64 key. -/
abbrev Edge : Type := Nat × Nat × Nat

/-- The `distances` list before sorting: `(dist, i, j)` for
`0 ≤ i < j < n` in enumeration order (`i` ascending, then `j`). -/
def allEdges (coords : List Pt) : List Edge :=
  (List.range coords.length).flatMap fun i =>
    ((List.range coords.length).filter fun j => i < j).map fun j =>
      (distKey (sqDist (coords.getD i (0, 0, 0)) (coords.getD j (0, 0, 0))), i, j)

/-- No squared distance reaches the binary64 overflow range.  On inputs
violating this, Python's `float` conversion raises `OverflowError`
inside `euclidean_distance` and the program completes no run, so the
driver claims are scoped to inputs satisfying it. -/
def overflowBound : Nat := 2 ^ 1023

def NoOverflow (coords : List Pt) : Prop :=
  ∀ p ∈ coords, ∀ q ∈ coords, sqDist p q < (overflowBound : Int)

instance instDecidableNoOverflow (coords : List Pt) : Decidable (NoOverflow coords) :=
  inferInstanceAs (Decidable (∀ p ∈ coords, ∀ q ∈ coords, sqDist p q < (overflowBound : Int)))

/-- Python's lexicographic tuple order on `(dist, i, j)`, which is what
`distances.sort()` sorts by. -/
def edgeLe (a b : Edge) : Prop :=
  a.1 < b.1 ∨ (a.1 = b.1 ∧ (a.2.1 < b.2.1 ∨ (a.2.1 = b.2.1 ∧ a.2.2 ≤ b.2.2)))

instance : DecidableRel edgeLe := fun a b => by
  unfold edgeLe
  infer_instance

instance : IsTotal Edge edgeLe :=
  ⟨by intro a b; unfold edgeLe; omega⟩

instance : IsTrans Edge edgeLe :=
  ⟨by intro a b c; unfold edgeLe; omega⟩

instance : IsAntisymm Edge edgeLe := by
  refine ⟨?_⟩
  intro a b h1 h2
  rcases a with ⟨a1, a2, a3⟩
  rcases b with ⟨b1, b2, b3⟩
  unfold edgeLe at h1 h2
  dsimp only at h1 h2
  have hc : a1 = b1 ∧ a2 = b2 ∧ a3 = b3 := by omega
  obtain ⟨rfl, rfl, rfl⟩ := hc
  rfl

/-- `distances.sort()`: the sorted candidate-edge sequence.  The keys
are pairwise distinct (each index pair occurs once), so the sorted
order is unique and any correct sorting algorithm computes it;
insertion sort is used because it is structurally recursive. -/
def sortEdges (coords : List Pt) : List Edge :=
  List.insertionSort edgeLe (allEdges coords)

/-! The two drivers. -/

/-- `circuit_sizes.sort(reverse=True)`: sort descending. -/
def sortDesc (l : List Nat) : List Nat :=
  List.insertionSort (fun a b : Nat => b ≤ a) l

instance : IsTotal Nat (fun a b : Nat => b ≤ a) :=
  ⟨fun a b => Nat.le_total b a⟩

instance : IsTrans Nat (fun a b : Nat => b ≤ a) :=
  ⟨fun _ _ _ h1 h2 => Nat.le_trans h2 h1⟩

/-- The Mode-B loop of `part2`: `union` every edge in order, decrement
`circuits` only when `union` returns `True`, and return the product of
the x-coordinates of the closing edge when `circuits` reaches 1. -/
def part2Go (coords : List Pt) : List Edge → DisjointSet → Nat → Option Int
  | [], _, _ => none
  | e :: rest, ds, circuits =>
    let u := ds.union e.2.1 e.2.2
    if u.2 then
      if circuits - 1 = 1 then
        some ((coords.getD e.2.1 (0, 0, 0)).1 * (coords.getD e.2.2 (0, 0, 0)).1)
      else part2Go coords rest u.1 (circuits - 1)
    else part2Go coords rest u.1 circuits

/-- `part2`: falls through to `return -1` when the ranked edges are
exhausted without reaching one circuit. -/
def part2 (coords : List Pt) : Int :=
  match part2Go coords (sortEdges coords) (DisjointSet.init coords.length)
      coords.length with
  | some v => v
  | none => -1

/-- Three collinear points used as a concrete Mode-B scenario. -/
def demoLine : List Pt := [(2, 0, 0), (3, 0, 0), (10, 0, 0)]

/-- `line.split(sep)` for a one-character separator: splitting an empty
string gives one empty field, every separator occurrence starts a new
field. -/
def splitOnChar (c : Char) : List Char → List (List Char)
  | [] => [[]]
  | x :: xs =>
    let r := splitOnChar c xs
    if x = c then [] :: r
    else
      match r with
      | [] => [[x]]
      | h :: t => (x :: h) :: t

/-- A line boundary of `str.splitlines()`: LF, CR, VT, FF, FS, GS, RS,
NEL, LINE SEPARATOR, PARAGRAPH SEPARATOR (CRLF is handled as one
boundary in `splitLinesGo`). -/
def isLineBreakCh (c : Char) : Bool :=
  c.toNat = 10 ∨ c.toNat = 13 ∨ c.toNat = 11 ∨ c.toNat = 12 ∨
    c.toNat = 28 ∨ c.toNat = 29 ∨ c.toNat = 30 ∨
    c.toNat = 133 ∨ c.toNat = 8232 ∨ c.toNat = 8233

/-- `data.splitlines()`: each boundary (with `"\r\n"` counting as one)
ends the current line; a final line is produced only when nonempty, so
a trailing boundary adds no empty line and empty input has no lines. -/
def splitLinesGo : List Char → List Char → List (List Char)
  | [], cur => if cur.isEmpty then [] else [cur.reverse]
  | '\r' :: '\n' :: cs, cur => cur.reverse :: splitLinesGo cs []
  | c :: cs, cur =>
    if isLineBreakCh c then cur.reverse :: splitLinesGo cs []
    else splitLinesGo cs (c :: cur)

def splitLines (s : List Char) : List (List Char) :=
  splitLinesGo s []

/-- An ASCII whitespace character stripped by Python's `int`:
`\t \n \v \f \r` and space. -/
def isSpaceCh (c : Char) : Bool :=
  c.toNat = 32 ∨ (9 ≤ c.toNat ∧ c.toNat ≤ 13)

/-- Strip leading and trailing whitespace. -/
def trimCh (cs : List Char) : List Char :=
  ((cs.dropWhile isSpaceCh).reverse.dropWhile isSpaceCh).reverse

def isDigitCh (c : Char) : Bool :=
  48 ≤ c.toNat ∧ c.toNat ≤ 57

/-- Digits of `int`, continued: after a digit, a single underscore may
occur but only directly between two digits (`1_2` parses, `_1`, `1_`
and `1__2` do not). -/
def digitsGo : List Char → Nat → Option Nat
  | [], acc => some acc
  | '_' :: c :: cs, acc =>
    if isDigitCh c then digitsGo cs (acc * 10 + (c.toNat - 48)) else none
  | ['_'], _ => none
  | c :: cs, acc =>
    if isDigitCh c then digitsGo cs (acc * 10 + (c.toNat - 48)) else none

/-- A nonempty digit run, underscores allowed between digits. -/
def parseDigits : List Char → Option Nat
  | [] => none
  | c :: cs => if isDigitCh c then digitsGo cs (c.toNat - 48) else none

/-- Python `int(token)` on ASCII tokens: optional surrounding
whitespace, an optional sign, then decimal digits with single
underscores allowed between digits.  `none` models the `ValueError`
raised on anything else.  (Non-ASCII digit and whitespace code points
accepted by `int` are outside the ASCII scope of the parsing claim.) -/
def parseIntToken (cs : List Char) : Option Int :=
  match trimCh cs with
  | '-' :: rest => (parseDigits rest).map fun v => -(v : Int)
  | '+' :: rest => (parseDigits rest).map fun v => (v : Int)
  | rest => (parseDigits rest).map fun v => (v : Int)

/-- `map(int, fields)` materialized: fails on the first bad token. -/
def parseFields : List (List Char) → Option (List Int)
  | [] => some []
  | t :: ts =>
    match parseIntToken t with
    | none => none
    | some v =>
      match parseFields ts with
      | none => none
      | some vs => some (v :: vs)

/-- `tuple(map(int, line.split(',')))`: every comma-separated field is
parsed as an integer — however many fields the line has; the source
performs no arity check. -/
def parseLine (line : List Char) : Option (List Int) :=
  parseFields (splitOnChar ',' line)

/-- The `ValueError` raised by `int` on a malformed token. -/
inductive ParseErr where
  | valueError

deriving DecidableEq

def parseLinesGo : List (List Char) → Except ParseErr (List (List Int))
  | [] => Except.ok []
  | l :: ls =>
    match parseLine l with
    | none => Except.error ParseErr.valueError
    | some t =>
      match parseLinesGo ls with
      | Except.error e => Except.error e
      | Except.ok ts => Except.ok (t :: ts)

/-- `parse_coordinates(data)`: one tuple of integers per line.  A
parsed line is kept as a list of integers of whatever length the line
had, mirroring Python's arity-flexible tuples. -/
def parse_coordinates (data : String) : Except ParseErr (List (List Int)) :=
  parseLinesGo (splitLines data.data)

namespace DisjointSet

/-! Basic facts about `Rooted` and `rootAux`. -/
theorem rooted_self {p : Nat → Nat} {r : Nat} (h : p r = r) : Rooted p r r :=
  ⟨0, rfl, h⟩

theorem rooted_step {p : Nat → Nat} {x r : Nat} (h : Rooted p (p x) r) : Rooted p x r := by
  obtain ⟨k, hk, hr⟩ := h
  exact ⟨k + 1, by rw [Function.iterate_succ_apply]; exact hk, hr⟩

theorem rooted_unique {p : Nat → Nat} {x r s : Nat}
    (h1 : Rooted p x r) (h2 : Rooted p x s) : r = s := by
  obtain ⟨k, hk, hkr⟩ := h1
  obtain ⟨l, hl, hlr⟩ := h2
  rcases Nat.le_total k l with h | h
  · have : p^[l] x = r := by
      have := Function.iterate_add_apply p (l - k) k x
      rw [Nat.sub_add_cancel h] at this
      rw [this, hk, Function.iterate_fixed hkr]
    rw [this] at hl; exact hl
  · have : p^[k] x = s := by
      have := Function.iterate_add_apply p (k - l) l x
      rw [Nat.sub_add_cancel h] at this
      rw [this, hl, Function.iterate_fixed hlr]
    rw [this] at hk; exact hk.symm

theorem rooted_parent_ne {p : Nat → Nat} {x r : Nat}
    (h : Rooted p x r) (hx : p x ≠ x) : Rooted p (p x) r := by
  obtain ⟨k, hk, hr⟩ := h
  match k with
  | 0 =>
    have hxr : x = r := by simpa using hk
    rw [← hxr] at hr
    exact absurd hr hx
  | k + 1 => exact ⟨k, by rw [Function.iterate_succ_apply] at hk; exact hk, hr⟩

/-- Parent chains of in-range indices stay in range. -/
theorem iterate_lt {p : Nat → Nat} {n : Nat} (hlt : ∀ x, x < n → p x < n)
    {x : Nat} (hx : x < n) (k : Nat) : p^[k] x < n := by
  induction k generalizing x with
  | zero => exact hx
  | succ k ih => rw [Function.iterate_succ_apply]; exact ih (hlt x hx)

/-- `rootAux` finds the root as soon as the fuel covers the chain length. -/
theorem rootAux_of_chain : ∀ (fuel : Nat) (p : Nat → Nat) (x r k : Nat),
    k ≤ fuel → p^[k] x = r → p r = r → rootAux fuel p x = r := by
  intro fuel
  induction fuel with
  | zero =>
    intro p x r k hk hchain hroot
    interval_cases k
    exact hchain
  | succ fuel ih =>
    intro p x r k hk hchain hroot
    by_cases hx : p x = x
    · have hxr : x = r := by rw [Function.iterate_fixed hx k] at hchain; exact hchain
      subst hxr
      simp [rootAux, hx]
    · match k with
      | 0 =>
        have hxr : x = r := by simpa using hchain
        rw [← hxr] at hroot
        exact absurd hroot hx
      | k + 1 =>
        rw [Function.iterate_succ_apply] at hchain
        simp only [rootAux, hx, if_neg hx]
        exact ih p (p x) r k (Nat.le_of_succ_le_succ hk) hchain hroot

/-- Pigeonhole: under range-closure, a terminating chain reaches its
root within `n` steps. -/
theorem rooted_bound {p : Nat → Nat} {n : Nat}
    (hge : ∀ x, n ≤ x → p x = x) (hlt : ∀ x, x < n → p x < n)
    {x r : Nat} (hx : Rooted p x r) : ∃ k, k ≤ n ∧ p^[k] x = r ∧ p r = r := by
  by_cases hxn : x < n
  · have hex : ∃ k, p (p^[k] x) = p^[k] x := by
      obtain ⟨k, hk, hr⟩ := hx
      exact ⟨k, by rw [hk]; exact hr⟩
    classical
    let m := Nat.find hex
    have hm : p (p^[m] x) = p^[m] x := Nat.find_spec hex
    have hmin : ∀ j, j < m → ¬ p (p^[j] x) = p^[j] x := fun j hj => Nat.find_min hex hj
    have hinj : ∀ i ∈ Finset.range (m + 1), ∀ j ∈ Finset.range (m + 1),
        p^[i] x = p^[j] x → i = j := by
      intro i hi j hj hij
      simp only [Finset.mem_range, Nat.lt_succ_iff] at hi hj
      by_contra hne
      rcases Nat.lt_or_ge i j with hlt' | hge'
      · have hkey : p^[(m - j) + i] x = p^[m] x := by
          rw [Function.iterate_add_apply, hij, ← Function.iterate_add_apply]
          congr 1
          omega
        have : p (p^[(m - j) + i] x) = p^[(m - j) + i] x := by rw [hkey]; exact hm
        exact hmin _ (by omega) this
      · have hlt'' : j < i := by omega
        have hkey : p^[(m - i) + j] x = p^[m] x := by
          rw [Function.iterate_add_apply, ← hij, ← Function.iterate_add_apply]
          congr 1
          omega
        have : p (p^[(m - i) + j] x) = p^[(m - i) + j] x := by rw [hkey]; exact hm
        exact hmin _ (by omega) this
    have hcard : m + 1 ≤ n := by
      have := Finset.card_le_card_of_injOn (fun i => p^[i] x)
        (fun i _ => Finset.mem_range.2 (iterate_lt hlt hxn i)) hinj
      simpa using this
    have hroot : Rooted p x (p^[m] x) := ⟨m, rfl, hm⟩
    have hrm : r = p^[m] x := rooted_unique hx hroot
    exact ⟨m, by omega, hrm.symm, by rw [hrm]; exact hm⟩
  · have hpx : p x = x := hge x (by omega)
    have : r = x := rooted_unique hx (rooted_self hpx)
    exact ⟨0, Nat.zero_le n, this.symm, by rw [this]; exact hpx⟩

/-- `rootN` computes the relational root on any well-formed state. -/
theorem rootN_eq {ds : DisjointSet}
    (hge : ∀ x, ds.n ≤ x → ds.parent x = x) (hlt : ∀ x, x < ds.n → ds.parent x < ds.n)
    {x r : Nat} (hx : Rooted ds.parent x r) : ds.rootN x = r := by
  obtain ⟨k, hk, hchain, hroot⟩ := rooted_bound hge hlt hx
  exact rootAux_of_chain ds.n ds.parent x r k hk hchain hroot

/-- Re-pointing a node directly at its own root (the path-compression
step) changes no node's root. -/
theorem rooted_update_compress {p : Nat → Nat} {x r : Nat} (hx : Rooted p x r) (z s : Nat) :
    Rooted (fun i => if i = x then r else p i) z s ↔ Rooted p z s := by
  have hr : p r = r := hx.choose_spec.2
  set p' : Nat → Nat := fun i => if i = x then r else p i with hp'
  have hr' : p' r = r := by
    simp only [hp']
    by_cases hrx : r = x
    · rw [if_pos hrx]
    · rw [if_neg hrx]; exact hr
  have fwd : ∀ k z s, p'^[k] z = s → p' s = s → Rooted p z s := by
    intro k
    induction k with
    | zero =>
      intro z s hzs hs
      simp only [Function.iterate_zero, id_eq] at hzs
      subst hzs
      simp only [hp'] at hs
      by_cases hzx : z = x
      · rw [if_pos hzx] at hs
        subst hzx
      -- hs : r = z, so z is its own root because r is
        rw [← hs]
        exact rooted_self hr
      · rw [if_neg hzx] at hs
        exact rooted_self hs
    | succ k ih =>
      intro z s hzs hs
      rw [Function.iterate_succ_apply] at hzs
      have hmid := ih (p' z) s hzs hs
      by_cases hzx : z = x
      · subst hzx
        have hpz : p' z = r := by simp [hp']
        rw [hpz] at hmid
        have hsr : s = r := rooted_unique hmid (rooted_self hr)
        rw [hsr]
        exact hx
      · have hpz : p' z = p z := by simp [hp', hzx]
        rw [hpz] at hmid
        exact rooted_step hmid
  have bwd : ∀ k z s, p^[k] z = s → p s = s → Rooted p' z s := by
    intro k
    induction k with
    | zero =>
      intro z s hzs hs
      simp only [Function.iterate_zero, id_eq] at hzs
      subst hzs
      by_cases hzx : z = x
      · have hrz : r = z := rooted_unique hx (by rw [hzx]; exact rooted_self (hzx ▸ hs))
        refine rooted_self ?_
        simp only [hp', if_pos hzx, hrz]
      · refine rooted_self ?_
        simp only [hp', if_neg hzx]
        exact hs
    | succ k ih =>
      intro z s hzs hs
      rw [Function.iterate_succ_apply] at hzs
      have hmid := ih (p z) s hzs hs
      by_cases hzx : z = x
      · subst hzx
        have hsr : s = r := by
          refine (rooted_unique hx ?_).symm
          exact ⟨k + 1, by rw [Function.iterate_succ_apply]; exact hzs, hs⟩
        rw [hsr]
        exact ⟨1, by simp [hp'], hr'⟩
      · have hpz : p' z = p z := by simp [hp', hzx]
        refine rooted_step ?_
        rw [hpz]
        exact hmid
  constructor
  · rintro ⟨k, hk, hs⟩
    exact fwd k z s hk hs
  · rintro ⟨k, hk, hs⟩
    exact bwd k z s hk hs

/-- Attaching the root `ab` under the distinct root `sv` sends every
node rooted at `ab` to `sv` and leaves all other roots unchanged. -/
theorem rooted_update_merge {p : Nat → Nat} {ab sv : Nat}
    (hab : p ab = ab) (hsv : p sv = sv) (hne : ab ≠ sv) (z s : Nat) :
    Rooted (fun i => if i = ab then sv else p i) z s ↔
      ∃ t, Rooted p z t ∧ s = if t = ab then sv else t := by
  set p' : Nat → Nat := fun i => if i = ab then sv else p i with hp'
  have hsv' : p' sv = sv := by
    simp only [hp', if_neg (Ne.symm hne)]
    exact hsv
  have fwd : ∀ k z s, p'^[k] z = s → p' s = s → ∃ t, Rooted p z t ∧ s = if t = ab then sv else t := by
    intro k
    induction k with
    | zero =>
      intro z s hzs hs
      simp only [Function.iterate_zero, id_eq] at hzs
      subst hzs
      have hsab : z ≠ ab := by
        intro h
        rw [h] at hs
        simp only [hp', if_pos rfl] at hs
        exact hne hs.symm
      simp only [hp', if_neg hsab] at hs
      exact ⟨z, rooted_self hs, by rw [if_neg hsab]⟩
    | succ k ih =>
      intro z s hzs hs
      rw [Function.iterate_succ_apply] at hzs
      have hmid := ih (p' z) s hzs hs
      by_cases hzab : z = ab
      · have hpz : p' z = sv := by simp [hp', hzab]
        rw [hpz] at hmid
        obtain ⟨t, ht, hst⟩ := hmid
        have htsv : t = sv := rooted_unique ht (rooted_self hsv)
        rw [htsv, if_neg (Ne.symm hne)] at hst
        refine ⟨ab, ?_, ?_⟩
        · rw [hzab]; exact rooted_self hab
        · rw [if_pos rfl]; exact hst
      · have hpz : p' z = p z := by simp [hp', hzab]
        rw [hpz] at hmid
        obtain ⟨t, ht, hst⟩ := hmid
        exact ⟨t, rooted_step ht, hst⟩
  have bwd : ∀ k z t, p^[k] z = t → p t = t → Rooted p' z (if t = ab then sv else t) := by
    intro k
    induction k with
    | zero =>
      intro z t hzt ht
      simp only [Function.iterate_zero, id_eq] at hzt
      subst hzt
      by_cases htab : z = ab
      · rw [if_pos htab, htab]
        exact ⟨1, by simp [hp'], hsv'⟩
      · rw [if_neg htab]
        refine rooted_self ?_
        simp only [hp', if_neg htab]
        exact ht
    | succ k ih =>
      intro z t hzt ht
      rw [Function.iterate_succ_apply] at hzt
      by_cases hzab : z = ab
      · have htab : t = ab := by
          rw [hzab, hab, Function.iterate_fixed hab k] at hzt
          exact hzt.symm
        rw [htab, if_pos rfl, hzab]
        exact ⟨1, by simp [hp'], hsv'⟩
      · have hmid := ih (p z) t hzt ht
        have hpz : p' z = p z := by simp [hp', hzab]
        refine rooted_step ?_
        rw [hpz]
        exact hmid
  constructor
  · rintro ⟨k, hk, hs⟩
    exact fwd k z s hk hs
  · rintro ⟨t, ⟨k, hk, ht⟩, hst⟩
    rw [hst]
    exact bwd k z t hk ht

theorem findAux_succ_of_ne {fuel : Nat} {ds : DisjointSet} {x : Nat}
    (h : ¬ ds.parent x = x) :
    findAux (fuel + 1) ds x =
      ({ (findAux fuel ds (ds.parent x)).1 with
         parent := fun i => if i = x then (findAux fuel ds (ds.parent x)).2
           else (findAux fuel ds (ds.parent x)).1.parent i },
       (findAux fuel ds (ds.parent x)).2) := by
  simp only [findAux, if_neg h]

theorem findAux_spec : ∀ (fuel : Nat) (ds : DisjointSet) (x r : Nat),
    (∃ k, k ≤ fuel ∧ ds.parent^[k] x = r ∧ ds.parent r = r) →
    (findAux fuel ds x).2 = r ∧ FindSpec ds (findAux fuel ds x).1 x r := by
  intro fuel
  induction fuel with
  | zero =>
    intro ds x r ⟨k, hk, hchain, hroot⟩
    interval_cases k
    simp only [Function.iterate_zero, id_eq] at hchain
    subst hchain
    refine ⟨rfl, ?_⟩
    exact {
      root_rooted := rooted_self hroot
      n_eq := rfl, rank_eq := rfl, size_eq := rfl
      parent_cases := fun z => Or.inl rfl
      isRoot_iff := fun z => Iff.rfl
      rooted_iff := fun z s => Iff.rfl
      compressed := fun k y hky hyr => by
        rw [Function.iterate_fixed hroot k] at hky
        exact absurd hky.symm hyr }
  | succ fuel ih =>
    intro ds x r ⟨k, hk, hchain, hroot⟩
    by_cases hx : ds.parent x = x
    · have hxr : x = r := by rw [Function.iterate_fixed hx k] at hchain; exact hchain
      subst hxr
      simp only [findAux, if_pos hx]
      refine ⟨by trivial, ?_⟩
      exact {
        root_rooted := rooted_self hx
        n_eq := rfl, rank_eq := rfl, size_eq := rfl
        parent_cases := fun z => Or.inl rfl
        isRoot_iff := fun z => Iff.rfl
        rooted_iff := fun z s => Iff.rfl
        compressed := fun k y hky hyr => by
          rw [Function.iterate_fixed hx k] at hky
          exact absurd hky.symm hyr }
    · match k with
      | 0 =>
        have hxr : x = r := by simpa using hchain
        rw [← hxr] at hroot
        exact absurd hroot hx
      | k + 1 =>
        rw [Function.iterate_succ_apply] at hchain
        obtain ⟨hres2, spec⟩ :=
          ih ds (ds.parent x) r ⟨k, Nat.le_of_succ_le_succ hk, hchain, hroot⟩
        rw [findAux_succ_of_ne hx]
        set res := findAux fuel ds (ds.parent x) with hres
        have hxroot : Rooted ds.parent x r := rooted_step ⟨k, hchain, hroot⟩
        have hrnex : r ≠ x := by
          intro h
          rw [h] at hroot
          exact hx hroot
        refine ⟨hres2, ?_⟩
        have hres1x : Rooted res.1.parent x r := (spec.rooted_iff x r).mpr hxroot
        refine {
          root_rooted := hxroot
          n_eq := spec.n_eq, rank_eq := spec.rank_eq, size_eq := spec.size_eq
          parent_cases := ?_, isRoot_iff := ?_, rooted_iff := ?_, compressed := ?_ }
        · intro z
          dsimp only
          by_cases hzx : z = x
          · rw [if_pos hzx, hres2]
            exact Or.inr rfl
          · rw [if_neg hzx]
            exact spec.parent_cases z
        · intro z
          dsimp only
          by_cases hzx : z = x
          · subst hzx
            rw [if_pos rfl, hres2]
            constructor
            · intro h
              exact absurd h hrnex
            · intro h
              exact absurd h hx
          · rw [if_neg hzx]
            exact spec.isRoot_iff z
        · intro z s
          dsimp only
          have hcompress := @rooted_update_compress res.1.parent x res.2
            (by rw [hres2]; exact hres1x) z s
          rw [hcompress]
          exact spec.rooted_iff z s
        · intro j y hjy hyr
          dsimp only
          match j with
          | 0 =>
            have hyx : y = x := by simpa using hjy.symm
            rw [if_pos hyx, hres2]
          | j + 1 =>
            rw [Function.iterate_succ_apply] at hjy
            have := spec.compressed j y hjy hyr
            by_cases hyx : y = x
            · rw [if_pos hyx, hres2]
            · rw [if_neg hyx]
              exact this

/-- Specification of `find` on a well-formed state. -/
theorem find_spec {ds : DisjointSet} {x r : Nat}
    (hge : ∀ z, ds.n ≤ z → ds.parent z = z) (hlt : ∀ z, z < ds.n → ds.parent z < ds.n)
    (hx : Rooted ds.parent x r) :
    (ds.find x).2 = r ∧ FindSpec ds (ds.find x).1 x r := by
  obtain ⟨k, hk, hchain, hroot⟩ := rooted_bound hge hlt hx
  exact findAux_spec ds.n ds x r ⟨k, hk, hchain, hroot⟩

theorem rootN_rooted {ds : DisjointSet} (h : Good ds) (x : Nat) :
    Rooted ds.parent x (ds.rootN x) := by
  obtain ⟨r, hr⟩ := h.term x
  have := rootN_eq h.closed_ge h.closed_lt hr
  rw [this]
  exact hr

theorem rootN_isRoot {ds : DisjointSet} (h : Good ds) (x : Nat) :
    ds.parent (ds.rootN x) = ds.rootN x :=
  (rootN_rooted h x).choose_spec.2

theorem rootN_lt {ds : DisjointSet} (h : Good ds) {x : Nat} (hx : x < ds.n) :
    ds.rootN x < ds.n := by
  obtain ⟨k, hk, _⟩ := rootN_rooted h x
  rw [← hk]
  exact iterate_lt h.closed_lt hx k

theorem rootN_eq_iff_rooted {ds : DisjointSet} (h : Good ds) {x r : Nat} :
    ds.rootN x = r ↔ Rooted ds.parent x r := by
  constructor
  · intro hr
    rw [← hr]
    exact rootN_rooted h x
  · exact rootN_eq h.closed_ge h.closed_lt

/-- `find` at a root returns immediately without mutating. -/
theorem find_of_root {ds : DisjointSet} {x : Nat} (hx : ds.parent x = x) :
    ds.find x = (ds, x) := by
  show findAux ds.n ds x = (ds, x)
  cases hn : ds.n with
  | zero => rfl
  | succ m => simp [findAux, hx]

/-- `find` on a `Good` state: returns `rootN`, preserves `Good`, and
changes nothing observable but compressed parent pointers. -/
theorem find_full {ds : DisjointSet} (h : Good ds) (x : Nat) :
    FindSpec ds (ds.find x).1 x (ds.find x).2 ∧ Good (ds.find x).1 ∧
      (ds.find x).2 = ds.rootN x ∧ (∀ z, (ds.find x).1.rootN z = ds.rootN z) := by
  obtain ⟨hr2, spec⟩ := find_spec h.closed_ge h.closed_lt (rootN_rooted h x)
  set ds' := (ds.find x).1 with hds'
  have hroot_lt : ∀ z, z < ds.n → (ds.rootN x = ds'.parent z → ds'.parent z < ds.n) := by
    intro z hz heq
    rcases Nat.lt_or_ge x ds.n with hxn | hxn
    · rw [← heq]
      exact rootN_lt h hxn
    · have hpx : ds.parent x = x := h.closed_ge x hxn
      have hid : ds'.parent z = ds.parent z := by
        rw [hds', find_of_root hpx]
      rw [hid]
      exact h.closed_lt z hz
  have hclosed_ge : ∀ z, ds'.n ≤ z → ds'.parent z = z := by
    intro z hz
    rw [spec.n_eq] at hz
    exact (spec.isRoot_iff z).mpr (h.closed_ge z hz)
  have hclosed_lt : ∀ z, z < ds'.n → ds'.parent z < ds'.n := by
    intro z hz
    rw [spec.n_eq] at hz ⊢
    rcases spec.parent_cases z with hc | hc
    · rw [hc]
      exact h.closed_lt z hz
    · exact hroot_lt z hz hc.symm
  have hrootN' : ∀ z, ds'.rootN z = ds.rootN z := by
    intro z
    refine rootN_eq hclosed_ge hclosed_lt ?_
    rw [spec.rooted_iff]
    exact rootN_rooted h z
  have hgood : Good ds' := by
    refine ⟨hclosed_ge, hclosed_lt, ?_, ?_⟩
    · intro z
      obtain ⟨r, hr⟩ := h.term z
      exact ⟨r, (spec.rooted_iff z r).mpr hr⟩
    · intro r hrn hroot
      rw [spec.n_eq] at hrn
      have hroot0 : ds.parent r = r := (spec.isRoot_iff r).mp hroot
      have := h.sizes r hrn hroot0
      rw [spec.size_eq, spec.n_eq, this]
      congr 1
      apply Finset.filter_congr
      intro z _
      rw [hrootN' z]
  exact ⟨by rw [hr2]; exact spec, hgood, hr2, hrootN'⟩

theorem link_n (ds : DisjointSet) (rootX rootY : Nat) :
    (link ds rootX rootY).n = ds.n := by
  unfold link
  dsimp only
  split <;> rfl

theorem link_parent (ds : DisjointSet) (rootX rootY : Nat) :
    (link ds rootX rootY).parent =
      fun i => if i = linkDrop ds rootX rootY then linkKeep ds rootX rootY
        else ds.parent i := by
  unfold link
  dsimp only
  split <;> rfl

theorem link_size (ds : DisjointSet) (rootX rootY : Nat) :
    (link ds rootX rootY).size =
      fun i => if i = linkKeep ds rootX rootY then
        ds.size (linkKeep ds rootX rootY) + ds.size (linkDrop ds rootX rootY)
        else ds.size i := by
  unfold link
  dsimp only
  split <;> rfl

theorem link_rank (ds : DisjointSet) (rootX rootY : Nat) :
    (link ds rootX rootY).rank =
      if ds.rank rootX = ds.rank rootY then
        (fun i => if i = linkKeep ds rootX rootY then
          ds.rank (linkKeep ds rootX rootY) + 1 else ds.rank i)
      else ds.rank := by
  unfold link linkKeep linkDrop
  by_cases hlt : ds.rank rootX < ds.rank rootY
  · have hne : ¬ ds.rank rootY = ds.rank rootX := by omega
    have hne' : ¬ ds.rank rootX = ds.rank rootY := by omega
    simp [hlt, hne, hne']
  · simp only [if_neg hlt]
    by_cases htie : ds.rank rootX = ds.rank rootY
    · simp [htie]
    · simp [htie]

/-- Any state whose fields are those of the merge step (root `ab`
attached under root `sv`, sizes accumulated at `sv`, `n` unchanged,
any rank table) is again `Good`, and the roots are relabelled
`ab ↦ sv`. -/
theorem merged_spec {ds ds' : DisjointSet} (h : Good ds) {sv ab : Nat}
    (hn : ds'.n = ds.n)
    (hp : ds'.parent = fun i => if i = ab then sv else ds.parent i)
    (hs : ds'.size = fun i => if i = sv then ds.size sv + ds.size ab else ds.size i)
    (hsv : ds.parent sv = sv) (hab : ds.parent ab = ab)
    (hne : ab ≠ sv) (hsvn : sv < ds.n) (habn : ab < ds.n) :
    Good ds' ∧
      (∀ z, ds'.rootN z = if ds.rootN z = ab then sv else ds.rootN z) := by
  have hrooted : ∀ z s, Rooted ds'.parent z s ↔
      ∃ t, Rooted ds.parent z t ∧ s = if t = ab then sv else t := by
    intro z s
    rw [hp]
    exact rooted_update_merge hab hsv hne z s
  have hclosed_ge : ∀ z, ds'.n ≤ z → ds'.parent z = z := by
    intro z hz
    rw [hn] at hz
    have hzab : z ≠ ab := by omega
    rw [hp]
    dsimp only
    rw [if_neg hzab]
    exact h.closed_ge z hz
  have hclosed_lt : ∀ z, z < ds'.n → ds'.parent z < ds'.n := by
    intro z hz
    rw [hn] at hz ⊢
    rw [hp]
    dsimp only
    by_cases hzab : z = ab
    · rw [if_pos hzab]; exact hsvn
    · rw [if_neg hzab]; exact h.closed_lt z hz
  have hterm : ∀ z, ∃ r, Rooted ds'.parent z r := by
    intro z
    refine ⟨if ds.rootN z = ab then sv else ds.rootN z, ?_⟩
    rw [hrooted]
    exact ⟨ds.rootN z, rootN_rooted h z, rfl⟩
  have hrootN : ∀ z, ds'.rootN z = if ds.rootN z = ab then sv else ds.rootN z := by
    intro z
    refine rootN_eq hclosed_ge hclosed_lt ?_
    rw [hrooted]
    exact ⟨ds.rootN z, rootN_rooted h z, rfl⟩
  refine ⟨⟨hclosed_ge, hclosed_lt, hterm, ?_⟩, hrootN⟩
  intro r hrn hroot
  rw [hn] at hrn
  rw [hp] at hroot
  dsimp only at hroot
  have hrab : r ≠ ab := by
    intro hr
    rw [if_pos hr, hr] at hroot
    exact hne hroot.symm
  rw [if_neg hrab] at hroot
  have hfib : ∀ t : Nat, ((Finset.range ds'.n).filter fun x => ds'.rootN x = t) =
      ((Finset.range ds.n).filter fun x =>
        (if ds.rootN x = ab then sv else ds.rootN x) = t) := by
    intro t
    rw [hn]
    apply Finset.filter_congr
    intro z _
    rw [hrootN z]
  rw [hs]
  dsimp only
  by_cases hrsv : r = sv
  · subst hrsv
    rw [if_pos rfl]
    rw [hfib r]
    have hsplit : ((Finset.range ds.n).filter fun x =>
        (if ds.rootN x = ab then r else ds.rootN x) = r) =
        ((Finset.range ds.n).filter fun x => ds.rootN x = r) ∪
          ((Finset.range ds.n).filter fun x => ds.rootN x = ab) := by
      ext z
      simp only [Finset.mem_filter, Finset.mem_union, Finset.mem_range]
      constructor
      · rintro ⟨hz, hzr⟩
        by_cases hzab : ds.rootN z = ab
        · exact Or.inr ⟨hz, hzab⟩
        · rw [if_neg hzab] at hzr
          exact Or.inl ⟨hz, hzr⟩
      · rintro (⟨hz, hzr⟩ | ⟨hz, hzr⟩)
        · refine ⟨hz, ?_⟩
          rw [hzr]
          split <;> rfl
        · refine ⟨hz, ?_⟩
          rw [hzr, if_pos rfl]
    rw [hsplit, Finset.card_union_of_disjoint, ← h.sizes r hrn hroot,
      ← h.sizes ab habn hab]
    rw [Finset.disjoint_filter]
    intro z _ hzr hzab
    rw [hzr] at hzab
    exact hrab hzab
  · rw [if_neg hrsv]
    rw [hfib r, h.sizes r hrn hroot]
    congr 1
    apply Finset.filter_congr
    intro z _
    by_cases hzab : ds.rootN z = ab
    · rw [if_pos hzab, hzab]
      constructor
      · intro hc
        exact absurd hc.symm hrab
      · intro hc
        exact absurd hc.symm hrsv
    · rw [if_neg hzab]

theorem union_of_eq {ds : DisjointSet} {x y : Nat}
    (h : (ds.find x).2 = ((ds.find x).1.find y).2) :
    ds.union x y = (((ds.find x).1.find y).1, false) := by
  simp only [union]
  rw [if_pos h]

theorem union_of_ne {ds : DisjointSet} {x y : Nat}
    (h : ¬ (ds.find x).2 = ((ds.find x).1.find y).2) :
    ds.union x y =
      (link ((ds.find x).1.find y).1 (ds.find x).2 ((ds.find x).1.find y).2, true) := by
  simp only [union]
  rw [if_neg h]

theorem linkKeep_congr {ds1 ds2 : DisjointSet} (h : ds1.rank = ds2.rank)
    (a b : Nat) : linkKeep ds1 a b = linkKeep ds2 a b := by
  unfold linkKeep
  rw [h]

theorem linkDrop_congr {ds1 ds2 : DisjointSet} (h : ds1.rank = ds2.rank)
    (a b : Nat) : linkDrop ds1 a b = linkDrop ds2 a b := by
  unfold linkDrop
  rw [h]

/-- `union` on two already-connected elements: reports `false` and
changes nothing except compressed parent pointers. -/
theorem union_spec_same {ds : DisjointSet} (h : Good ds) {x y : Nat}
    (hxy : ds.rootN x = ds.rootN y) :
    (ds.union x y).2 = false ∧ Good (ds.union x y).1 ∧
      (ds.union x y).1.n = ds.n ∧
      (ds.union x y).1.rank = ds.rank ∧
      (ds.union x y).1.size = ds.size ∧
      (∀ z, ((ds.union x y).1.parent z = z ↔ ds.parent z = z)) ∧
      (∀ z, (ds.union x y).1.rootN z = ds.rootN z) := by
  obtain ⟨spec1, good1, hr1, hrootN1⟩ := find_full h x
  obtain ⟨spec2, good2, hr2, hrootN2⟩ := find_full good1 y
  have heq : (ds.find x).2 = ((ds.find x).1.find y).2 := by
    rw [hr1, hr2, hrootN1 y, hxy]
  rw [union_of_eq heq]
  refine ⟨rfl, good2, ?_, ?_, ?_, ?_, ?_⟩
  · rw [spec2.n_eq, spec1.n_eq]
  · rw [spec2.rank_eq, spec1.rank_eq]
  · rw [spec2.size_eq, spec1.size_eq]
  · intro z
    rw [spec2.isRoot_iff z, spec1.isRoot_iff z]
  · intro z
    rw [hrootN2 z, hrootN1 z]

/-- `union` on two elements with distinct roots: reports `true`,
attaches the absorbed root under the survivor, accumulates the size at
the survivor, bumps the survivor's rank exactly on a rank tie, and
relabels roots `absorbed ↦ survivor`. -/
theorem union_spec_diff {ds : DisjointSet} (h : Good ds) {x y : Nat}
    (hx : x < ds.n) (hy : y < ds.n) (hxy : ds.rootN x ≠ ds.rootN y) :
    (ds.union x y).2 = true ∧ Good (ds.union x y).1 ∧
      (ds.union x y).1.n = ds.n ∧
      (ds.union x y).1.parent (absorbed ds x y) = survivor ds x y ∧
      (∀ z, ((ds.union x y).1.parent z = z ↔ (ds.parent z = z ∧ z ≠ absorbed ds x y))) ∧
      (∀ z, (ds.union x y).1.rootN z =
        if ds.rootN z = absorbed ds x y then survivor ds x y else ds.rootN z) ∧
      ((ds.union x y).1.size (survivor ds x y) =
        ds.size (survivor ds x y) + ds.size (absorbed ds x y)) ∧
      (∀ z, z ≠ survivor ds x y → (ds.union x y).1.size z = ds.size z) ∧
      ((ds.union x y).1.rank =
        if ds.rank (ds.rootN x) = ds.rank (ds.rootN y) then
          (fun i => if i = survivor ds x y then ds.rank (survivor ds x y) + 1 else ds.rank i)
        else ds.rank) := by
  obtain ⟨spec1, good1, hr1, hrootN1⟩ := find_full h x
  obtain ⟨spec2, good2, hr2, hrootN2⟩ := find_full good1 y
  set ds2 := ((ds.find x).1.find y).1 with hds2
  have hrank2 : ds2.rank = ds.rank := by rw [spec2.rank_eq, spec1.rank_eq]
  have hsize2 : ds2.size = ds.size := by rw [spec2.size_eq, spec1.size_eq]
  have hn2 : ds2.n = ds.n := by rw [spec2.n_eq, spec1.n_eq]
  have hrootN2' : ∀ z, ds2.rootN z = ds.rootN z := by
    intro z
    rw [hrootN2 z, hrootN1 z]
  have hrX : (ds.find x).2 = ds.rootN x := hr1
  have hrY : ((ds.find x).1.find y).2 = ds.rootN y := by
    rw [hr2, hrootN1 y]
  have hne : ¬ (ds.find x).2 = ((ds.find x).1.find y).2 := by
    rw [hrX, hrY]
    exact hxy
  rw [union_of_ne hne]
  dsimp only
  rw [hrX, hrY]
  have hkeep : linkKeep ds2 (ds.rootN x) (ds.rootN y) = survivor ds x y :=
    linkKeep_congr hrank2 _ _
  have hdrop : linkDrop ds2 (ds.rootN x) (ds.rootN y) = absorbed ds x y :=
    linkDrop_congr hrank2 _ _
  have hsv_cases : survivor ds x y = ds.rootN x ∨ survivor ds x y = ds.rootN y := by
    unfold survivor linkKeep
    split
    · exact Or.inr rfl
    · exact Or.inl rfl
  have hab_cases : absorbed ds x y = ds.rootN x ∨ absorbed ds x y = ds.rootN y := by
    unfold absorbed linkDrop
    split
    · exact Or.inl rfl
    · exact Or.inr rfl
  have hsvab : absorbed ds x y ≠ survivor ds x y := by
    unfold survivor absorbed linkKeep linkDrop
    split
    · exact hxy
    · exact fun hc => hxy hc.symm
  have hroot_of : ∀ t : Nat, (ds.parent t = t) → ds2.parent t = t := by
    intro t ht
    rw [spec2.isRoot_iff t, spec1.isRoot_iff t]
    exact ht
  have hsv_root : ds2.parent (survivor ds x y) = survivor ds x y := by
    rcases hsv_cases with hc | hc <;> rw [hc]
    · exact hroot_of _ (rootN_isRoot h x)
    · exact hroot_of _ (rootN_isRoot h y)
  have hab_root : ds2.parent (absorbed ds x y) = absorbed ds x y := by
    rcases hab_cases with hc | hc <;> rw [hc]
    · exact hroot_of _ (rootN_isRoot h x)
    · exact hroot_of _ (rootN_isRoot h y)
  have hsv_lt : survivor ds x y < ds2.n := by
    rw [hn2]
    rcases hsv_cases with hc | hc <;> rw [hc]
    · exact rootN_lt h hx
    · exact rootN_lt h hy
  have hab_lt : absorbed ds x y < ds2.n := by
    rw [hn2]
    rcases hab_cases with hc | hc <;> rw [hc]
    · exact rootN_lt h hx
    · exact rootN_lt h hy
  have hlp := link_parent ds2 (ds.rootN x) (ds.rootN y)
  have hls := link_size ds2 (ds.rootN x) (ds.rootN y)
  have hlr := link_rank ds2 (ds.rootN x) (ds.rootN y)
  have hln := link_n ds2 (ds.rootN x) (ds.rootN y)
  rw [hkeep, hdrop] at hlp
  rw [hkeep, hdrop] at hls
  rw [hkeep] at hlr
  obtain ⟨hgood, hrootN'⟩ := merged_spec good2
    (by rw [hln]) hlp hls hsv_root hab_root hsvab hsv_lt hab_lt
  refine ⟨rfl, hgood, by rw [hln, hn2], ?_, ?_, ?_, ?_, ?_, ?_⟩
  · rw [hlp]
    dsimp only
    rw [if_pos rfl]
  · intro z
    rw [hlp]
    dsimp only
    by_cases hzab : z = absorbed ds x y
    · rw [if_pos hzab]
      constructor
      · intro hc
        rw [hzab] at hc
        exact absurd hc.symm hsvab
      · rintro ⟨-, hzab2⟩
        exact absurd hzab hzab2
    · rw [if_neg hzab]
      rw [spec2.isRoot_iff z, spec1.isRoot_iff z]
      constructor
      · intro hc
        exact ⟨hc, hzab⟩
      · rintro ⟨hc, -⟩
        exact hc
  · intro z
    rw [hrootN' z, hrootN2' z]
  · rw [hls]
    dsimp only
    rw [if_pos rfl, hsize2]
  · intro z hz
    rw [hls]
    dsimp only
    rw [if_neg hz, hsize2]
  · rw [hlr, hrank2]

theorem rootN_init (n : Nat) (x : Nat) : (init n).rootN x = x := by
  show rootAux n (fun i => i) x = x
  cases n with
  | zero => rfl
  | succ m => simp [rootAux]

theorem good_init (n : Nat) : Good (init n) := by
  refine ⟨fun x _ => rfl, fun x hx => hx, fun x => ⟨x, rooted_self rfl⟩, ?_⟩
  intro r hrn _
  show 1 = ((Finset.range n).filter fun x => (init n).rootN x = r).card
  have : ((Finset.range n).filter fun x => (init n).rootN x = r) = {r} := by
    ext z
    simp only [Finset.mem_filter, Finset.mem_range, Finset.mem_singleton, rootN_init]
    constructor
    · rintro ⟨-, hz⟩
      exact hz
    · rintro rfl
      exact ⟨hrn, rfl⟩
  rw [this, Finset.card_singleton]

/-- Sum of the sizes at the current roots equals `n`. -/
theorem good_sum {ds : DisjointSet} (h : Good ds) :
    (rootsFinset ds).sum ds.size = ds.n := by
  have hmem : ∀ x ∈ Finset.range ds.n, ds.rootN x ∈ rootsFinset ds := by
    intro x hx
    rw [Finset.mem_range] at hx
    unfold rootsFinset
    rw [Finset.mem_filter, Finset.mem_range]
    exact ⟨rootN_lt h hx, rootN_isRoot h x⟩
  have := Finset.card_eq_sum_card_fiberwise hmem
  rw [Finset.card_range] at this
  rw [this]
  apply Finset.sum_congr rfl
  intro r hr
  unfold rootsFinset at hr
  rw [Finset.mem_filter, Finset.mem_range] at hr
  exact h.sizes r hr.1 hr.2

/-- Which of the two roots survives and which is absorbed. -/
theorem survivor_absorbed_cases (ds : DisjointSet) (x y : Nat) :
    (survivor ds x y = ds.rootN x ∧ absorbed ds x y = ds.rootN y) ∨
      (survivor ds x y = ds.rootN y ∧ absorbed ds x y = ds.rootN x) := by
  unfold survivor absorbed linkKeep linkDrop
  split
  · exact Or.inr ⟨rfl, rfl⟩
  · exact Or.inl ⟨rfl, rfl⟩

/-- `union` makes its two arguments share a root. -/
theorem union_connects {ds : DisjointSet} (h : Good ds) {x y : Nat}
    (hx : x < ds.n) (hy : y < ds.n) :
    (ds.union x y).1.rootN x = (ds.union x y).1.rootN y := by
  by_cases hxy : ds.rootN x = ds.rootN y
  · obtain ⟨-, -, -, -, -, -, hrootN⟩ := union_spec_same h hxy
    rw [hrootN x, hrootN y, hxy]
  · obtain ⟨-, -, -, -, -, hrootN, -, -, -⟩ := union_spec_diff h hx hy hxy
    rw [hrootN x, hrootN y]
    rcases survivor_absorbed_cases ds x y with ⟨hsv, hab⟩ | ⟨hsv, hab⟩
    · rw [if_neg (by rw [hab]; exact hxy), if_pos (by rw [hab])]
      exact hsv.symm
    · rw [if_pos (by rw [hab]), if_neg (by rw [hab]; exact fun hc => hxy hc.symm)]
      exact hsv

theorem good_union {ds : DisjointSet} (h : Good ds) {x y : Nat}
    (hx : x < ds.n) (hy : y < ds.n) : Good (ds.union x y).1 := by
  by_cases hxy : ds.rootN x = ds.rootN y
  · exact (union_spec_same h hxy).2.1
  · exact (union_spec_diff h hx hy hxy).2.1

theorem union_n {ds : DisjointSet} (h : Good ds) {x y : Nat}
    (hx : x < ds.n) (hy : y < ds.n) : (ds.union x y).1.n = ds.n := by
  by_cases hxy : ds.rootN x = ds.rootN y
  · exact (union_spec_same h hxy).2.2.1
  · exact (union_spec_diff h hx hy hxy).2.2.1

/-- `union` reports `true` exactly when the two roots were distinct. -/
theorem union_merged_iff {ds : DisjointSet} (h : Good ds) {x y : Nat}
    (hx : x < ds.n) (hy : y < ds.n) :
    (ds.union x y).2 = true ↔ ds.rootN x ≠ ds.rootN y := by
  by_cases hxy : ds.rootN x = ds.rootN y
  · rw [(union_spec_same h hxy).1]
    simp [hxy]
  · rw [(union_spec_diff h hx hy hxy).1]
    simp [hxy]

end DisjointSet

open DisjointSet in

theorem good_applyOp {ds : DisjointSet} (h : Good ds) (op : DSOp) :
    Good (applyOp ds op) := by
  cases op with
  | union x y =>
    show Good (if x < ds.n ∧ y < ds.n then (ds.union x y).1 else ds)
    split
    · next hc => exact good_union h hc.1 hc.2
    · exact h
  | find x =>
    show Good (if x < ds.n then (ds.find x).1 else ds)
    split
    · exact (find_full h x).2.1
    · exact h

open DisjointSet in

theorem good_applyOps {ds : DisjointSet} (h : Good ds) (ops : List DSOp) :
    Good (applyOps ops ds) := by
  induction ops generalizing ds with
  | nil => exact h
  | cons op rest ih => exact ih (good_applyOp h op)

open DisjointSet in

theorem applyOps_good_init (n : Nat) (ops : List DSOp) :
    Good (applyOps ops (init n)) :=
  good_applyOps (good_init n) ops

/-! Lemmas about the drivers. -/
open DisjointSet

theorem sortDesc_sorted (l : List Nat) :
    List.Sorted (fun a b : Nat => b ≤ a) (sortDesc l) :=
  List.sorted_insertionSort _ l

theorem applyOp_n {ds : DisjointSet} (h : Good ds) (op : DSOp) :
    (applyOp ds op).n = ds.n := by
  cases op with
  | union x y =>
    show (if x < ds.n ∧ y < ds.n then (ds.union x y).1 else ds).n = ds.n
    split
    · next hc => exact union_n h hc.1 hc.2
    · rfl
  | find x =>
    show (if x < ds.n then (ds.find x).1 else ds).n = ds.n
    split
    · exact (find_full h x).1.n_eq
    · rfl

theorem applyOps_n {ds : DisjointSet} (h : Good ds) (ops : List DSOp) :
    (applyOps ops ds).n = ds.n := by
  induction ops generalizing ds with
  | nil => rfl
  | cons op rest ih =>
    show (applyOps rest (applyOp ds op)).n = ds.n
    rw [ih (good_applyOp h op), applyOp_n h op]

/-! The claim theorems. -/

/-- C9: Mode B on a single point (no candidate edges), and in general
whenever the loop exhausts the candidate sequence without the counter
reaching 1, returns the distinguished sentinel `-1` (`return -1`,
"should never reach here") rather than an ordinary edge product. -/
theorem c9_mode_b_boundary (coords : List Pt) :
    (coords.length = 1 → part2 coords = -1) ∧
      (part2Go coords (sortEdges coords) (DisjointSet.init coords.length)
          coords.length = none → part2 coords = -1) := by
  constructor
  · intro h1
    have hedges : allEdges coords = [] := by
      unfold allEdges
      rw [h1]
      rfl
    have hse : sortEdges coords = [] := by
      unfold sortEdges
      rw [hedges]
      rfl
    show (match part2Go coords (sortEdges coords) (DisjointSet.init coords.length)
        coords.length with
      | some v => v
      | none => -1) = -1
    rw [hse]
    rfl
  · intro hnone
    show (match part2Go coords (sortEdges coords) (DisjointSet.init coords.length)
        coords.length with
      | some v => v
      | none => -1) = -1
    rw [hnone]

/-- C9 witness: a single point yields `-1`. -/
theorem c9_witness : part2 [((5 : Int), (0 : Int), (0 : Int))] = -1 :=
  (c9_mode_b_boundary [((5 : Int), (0 : Int), (0 : Int))]).1 (by decide)

/-- C4: a fresh `DisjointSet n` has `n` singleton components
(self-parented, rank 0, size 1), and after any sequence of (in-range)
`union` and `find` calls every parent chain still terminates at a root
and the sizes recorded at the current roots sum to `n`. -/
theorem c4_partition_invariant (n : Nat) (ops : List DSOp) :
    (∀ x, x < n → (DisjointSet.init n).parent x = x ∧
      (DisjointSet.init n).rank x = 0 ∧ (DisjointSet.init n).size x = 1) ∧
      (∀ x, (applyOps ops (DisjointSet.init n)).parent
          ((applyOps ops (DisjointSet.init n)).rootN x) =
          (applyOps ops (DisjointSet.init n)).rootN x) ∧
      (rootsFinset (applyOps ops (DisjointSet.init n))).sum
          (applyOps ops (DisjointSet.init n)).size = n := by
  have hgood := applyOps_good_init n ops
  refine ⟨fun x _ => ⟨rfl, rfl, rfl⟩, fun x => rootN_isRoot hgood x, ?_⟩
  rw [good_sum hgood]
  exact applyOps_n (good_init n) ops

/-- C4 witness: two elements, one union. -/
theorem c4_witness :
    ((DisjointSet.init 2).parent 1 = 1 ∧ (DisjointSet.init 2).rank 1 = 0 ∧
      (DisjointSet.init 2).size 1 = 1) ∧
      (rootsFinset (applyOps [DSOp.union 0 1] (DisjointSet.init 2))).sum
        (applyOps [DSOp.union 0 1] (DisjointSet.init 2)).size = 2 := by
  have h := c4_partition_invariant 2 [DSOp.union 0 1]
  exact ⟨h.1 1 (by decide), h.2.2⟩

/-- C10: after any sequence of (in-range) `union` and `find` calls on a
fresh `DisjointSet n`, the size stored at any root `r` equals the
number of indices whose `find` returns `r` — so reading `size` at the
roots, as `part1` does, yields the true component sizes. -/
theorem c10_size_exact (n : Nat) (ops : List DSOp) (r : Nat)
    (hr : r < n) (hroot : (applyOps ops (DisjointSet.init n)).parent r = r) :
    (applyOps ops (DisjointSet.init n)).size r =
      ((Finset.range n).filter fun x =>
        ((applyOps ops (DisjointSet.init n)).find x).2 = r).card := by
  have hgood := applyOps_good_init n ops
  have hn : (applyOps ops (DisjointSet.init n)).n = n := applyOps_n (good_init n) ops
  have hrn : r < (applyOps ops (DisjointSet.init n)).n := by rw [hn]; exact hr
  rw [hgood.sizes r hrn hroot, hn]
  congr 1
  apply Finset.filter_congr
  intro z _
  rw [(find_full hgood z).2.2.1]

/-- C10 witness: three elements, one union, root 0 has size 2 and two
finds land on it. -/
theorem c10_witness :
    (applyOps [DSOp.union 0 1] (DisjointSet.init 3)).size 0 =
      ((Finset.range 3).filter fun x =>
        ((applyOps [DSOp.union 0 1] (DisjointSet.init 3)).find x).2 = 0).card :=
  c10_size_exact 3 [DSOp.union 0 1] 0 (by decide) (by decide)

/-- C8: on any state reachable from a fresh structure, `find x` twice
returns the same root; `find` re-points every node of `x`'s path
directly at the discovered root; and a `find` never changes the root
any other `find` returns. -/
theorem c8_find_idempotent (n : Nat) (ops : List DSOp) (x : Nat) :
    (((applyOps ops (DisjointSet.init n)).find x).2 =
        ((((applyOps ops (DisjointSet.init n)).find x).1).find x).2) ∧
      (∀ k y, (applyOps ops (DisjointSet.init n)).parent^[k] x = y →
        y ≠ ((applyOps ops (DisjointSet.init n)).find x).2 →
        ((applyOps ops (DisjointSet.init n)).find x).1.parent y =
          ((applyOps ops (DisjointSet.init n)).find x).2) ∧
      (∀ y, (((applyOps ops (DisjointSet.init n)).find x).1.find y).2 =
        ((applyOps ops (DisjointSet.init n)).find y).2) := by
  have hgood := applyOps_good_init n ops
  obtain ⟨spec, hgood1, hroot, hrootN⟩ := find_full hgood x
  refine ⟨?_, ?_, ?_⟩
  · have h2 := (find_full hgood1 x).2.2.1
    rw [h2, hrootN x, hroot]
  · intro k y hky hyne
    exact spec.compressed k y hky hyne
  · intro y
    have h2 := (find_full hgood1 y).2.2.1
    rw [h2, hrootN y, (find_full hgood y).2.2.1]

/-- C8 witness: on parent chain `3 → 2 → 0`, `find 3` re-points the
visited node 2 straight at the root. -/
theorem c8_witness :
    ((applyOps [DSOp.union 0 1, DSOp.union 2 3, DSOp.union 1 3]
        (DisjointSet.init 4)).find 3).1.parent 2 =
      ((applyOps [DSOp.union 0 1, DSOp.union 2 3, DSOp.union 1 3]
        (DisjointSet.init 4)).find 3).2 := by
  have h := c8_find_idempotent 4 [DSOp.union 0 1, DSOp.union 2 3, DSOp.union 1 3] 3
  exact h.2.1 1 2 (by decide) (by decide)

/-- C3 counterexample: a no-op `union` (equal roots) must return
`false`, but it is NOT mutation-free — the embedded `find` calls
compress paths.  On parent table `[0, 0, 0, 2]`, `union 3 1` returns
`false` yet re-points `parent[3]` from 2 to 0. -/
theorem c3_counterexample :
    ((applyOps [DSOp.union 0 1, DSOp.union 2 3, DSOp.union 1 3]
        (DisjointSet.init 4)).union 3 1).2 = false ∧
      (applyOps [DSOp.union 0 1, DSOp.union 2 3, DSOp.union 1 3]
        (DisjointSet.init 4)).parent 3 = 2 ∧
      ((applyOps [DSOp.union 0 1, DSOp.union 2 3, DSOp.union 1 3]
        (DisjointSet.init 4)).union 3 1).1.parent 3 = 0 :=
  ⟨by decide, by decide, by decide⟩

/-- C3 (amended): `union x y` with equal roots returns `false` and
changes no rank, no size and no node's root (though `find`'s path
compression may re-point parents); with distinct roots it returns
`true`, attaches the lower-rank root under the higher-rank root (tie:
`root_y` under `root_x`), accumulates the absorbed size into the
survivor and bumps the survivor's rank exactly on a rank tie; and a
second `union` with the same arguments returns `false`. -/
theorem c3_union_amended {ds : DisjointSet} (h : Good ds) {x y : Nat}
    (hx : x < ds.n) (hy : y < ds.n) :
    (ds.rootN x = ds.rootN y →
      ((ds.union x y).2 = false ∧ (ds.union x y).1.rank = ds.rank ∧
        (ds.union x y).1.size = ds.size ∧
        (∀ z, (ds.union x y).1.rootN z = ds.rootN z))) ∧
      (ds.rootN x ≠ ds.rootN y →
        ((ds.union x y).2 = true ∧
          survivor ds x y = (if ds.rank (ds.rootN x) < ds.rank (ds.rootN y)
            then ds.rootN y else ds.rootN x) ∧
          absorbed ds x y = (if ds.rank (ds.rootN x) < ds.rank (ds.rootN y)
            then ds.rootN x else ds.rootN y) ∧
          (ds.union x y).1.parent (absorbed ds x y) = survivor ds x y ∧
          (ds.union x y).1.size (survivor ds x y) =
            ds.size (survivor ds x y) + ds.size (absorbed ds x y) ∧
          (ds.union x y).1.rank (survivor ds x y) =
            (if ds.rank (ds.rootN x) = ds.rank (ds.rootN y)
              then ds.rank (survivor ds x y) + 1
              else ds.rank (survivor ds x y)))) ∧
      ((ds.union x y).1.union x y).2 = false := by
  refine ⟨?_, ?_, ?_⟩
  · intro hxy
    obtain ⟨hb, -, -, hrk, hsz, -, hrootN⟩ := union_spec_same h hxy
    exact ⟨hb, hrk, hsz, hrootN⟩
  · intro hxy
    obtain ⟨hb, -, -, hpar, -, -, hsz, -, hrk⟩ := union_spec_diff h hx hy hxy
    refine ⟨hb, rfl, rfl, hpar, hsz, ?_⟩
    rw [hrk]
    by_cases htie : ds.rank (ds.rootN x) = ds.rank (ds.rootN y)
    · rw [if_pos htie, if_pos htie, if_pos rfl]
    · rw [if_neg htie, if_neg htie]
  · have hgood1 : Good (ds.union x y).1 := good_union h hx hy
    have hconn : (ds.union x y).1.rootN x = (ds.union x y).1.rootN y :=
      union_connects h hx hy
    exact (union_spec_same hgood1 hconn).1

/-- C3 witness: from two singletons, the first `union 0 1` merges and
the second returns `false`. -/
theorem c3_witness :
    ((DisjointSet.init 2).union 0 1).2 = true ∧
      (((DisjointSet.init 2).union 0 1).1.union 0 1).2 = false := by
  have h := @c3_union_amended (DisjointSet.init 2) (good_init 2) 0 1 (by decide) (by decide)
  exact ⟨(h.2.1 (by decide)).1, h.2.2⟩

/-- C6 counterexample: a line with only two (integer) fields does not
raise: `parse_coordinates "1,2"` returns the two-element tuple — the
source checks no field count. -/
theorem c6_counterexample :
    parse_coordinates "1,2" = Except.ok [[1, 2]] ∧
      parse_coordinates "1,2" ≠ Except.error ParseErr.valueError := by
  refine ⟨rfl, ?_⟩
  intro hc
  rw [show parse_coordinates "1,2" = Except.ok [[1, 2]] from rfl] at hc
  exact Except.noConfusion hc

theorem parseFields_none_iff (ts : List (List Char)) :
    parseFields ts = none ↔ ∃ t ∈ ts, parseIntToken t = none := by
  induction ts with
  | nil => simp [parseFields]
  | cons t ts ih =>
    show (match parseIntToken t with
      | none => none
      | some v =>
        match parseFields ts with
        | none => none
        | some vs => some (v :: vs)) = none ↔ _
    cases ht : parseIntToken t with
    | none =>
      simp only [List.mem_cons]
      constructor
      · intro _
        exact ⟨t, Or.inl rfl, ht⟩
      · intro _
        trivial
    | some v =>
      cases hts : parseFields ts with
      | none =>
        simp only [List.mem_cons]
        constructor
        · intro _
          obtain ⟨u, hu, hun⟩ := ih.mp hts
          exact ⟨u, Or.inr hu, hun⟩
        · intro _
          trivial
      | some vs =>
        simp only [List.mem_cons]
        constructor
        · intro hc
          exact absurd hc (by simp)
        · rintro ⟨u, hu | hu, hun⟩
          · rw [← hu] at ht
            rw [ht] at hun
            exact Option.noConfusion hun
          · have : parseFields ts = none := ih.mpr ⟨u, hu, hun⟩
            rw [this] at hts
            exact Option.noConfusion hts

theorem parseLinesGo_error_iff (ls : List (List Char)) :
    parseLinesGo ls = Except.error ParseErr.valueError ↔
      ∃ l ∈ ls, parseLine l = none := by
  induction ls with
  | nil =>
    constructor
    · intro hc
      exact absurd hc (by simp [parseLinesGo])
    · rintro ⟨l, hl, -⟩
      exact absurd hl (List.not_mem_nil l)
  | cons l ls ih =>
    show (match parseLine l with
      | none => Except.error ParseErr.valueError
      | some t =>
        match parseLinesGo ls with
        | Except.error e => Except.error e
        | Except.ok ts => Except.ok (t :: ts)) = Except.error ParseErr.valueError ↔ _
    cases hl : parseLine l with
    | none =>
      simp only [List.mem_cons]
      constructor
      · intro _
        exact ⟨l, Or.inl rfl, hl⟩
      · intro _
        trivial
    | some t =>
      cases hls : parseLinesGo ls with
      | error e =>
        cases e
        simp only [List.mem_cons]
        constructor
        · intro _
          obtain ⟨u, hu, hun⟩ := ih.mp hls
          exact ⟨u, Or.inr hu, hun⟩
        · intro _
          trivial
      | ok ts =>
        simp only [List.mem_cons]
        constructor
        · intro hc
          exact absurd hc (by simp)
        · rintro ⟨u, hu | hu, hun⟩
          · rw [← hu] at hl
            rw [hl] at hun
            exact Option.noConfusion hun
          · have hn : parseLinesGo ls = Except.error ParseErr.valueError :=
              ih.mpr ⟨u, hu, hun⟩
            rw [hn] at hls
            exact Except.noConfusion hls

/-- C6 (amended): on ASCII input, `parse_coordinates` fails — with the
`ValueError` raised by `int` — exactly when some comma-separated token
of some line is not an integer in Python's `int` syntax (optional
surrounding ASCII whitespace, optional sign, digits with single
embedded underscores allowed only between digits); lines are cut at
every `splitlines` boundary (`\n`, `\r`, `\r\n`, `\v`, `\f`, and the
C1/Unicode separators).  A wrong field count alone raises nothing: the
line is returned as a tuple of its actual length. -/
theorem c6_parse_error_iff (data : String)
    (_hascii : ∀ c ∈ data.data, c.toNat < 128) :
    parse_coordinates data = Except.error ParseErr.valueError ↔
      ∃ line ∈ splitLines data.data, ∃ tok ∈ splitOnChar ',' line,
        parseIntToken tok = none := by
  unfold parse_coordinates
  rw [parseLinesGo_error_iff]
  apply exists_congr
  intro l
  apply and_congr_right
  intro _
  unfold parseLine
  rw [parseFields_none_iff]

/-- C6 witness: a `\r`-free ASCII input with an underscore-free
non-integer token `x` on the second line raises `ValueError`, while
lines of the wrong arity alone would not. -/
theorem c6_witness :
    parse_coordinates "1,2,3\n4,x,6" = Except.error ParseErr.valueError :=
  (c6_parse_error_iff "1,2,3\n4,x,6" (by decide)).mpr (by decide)

end Day08
